import Mathlib

/-!
Verification development for the script-synthesis and metered voice-rendering
engine (source files `script_generator.py` and `tts_generator.py`).

The Python code is shallowly embedded: text is `List Char`, Python `float`
durations are `ℚ` (exact arithmetic; a separate binary64 rounding model is
used where floating-point behaviour itself is at issue), Python exceptions
become `Except Err`, and the persisted quota ledger is explicit state passed
in and out of the functions that read and write it.
-/

/-- Error kinds.  `divByZero` models Python's `ZeroDivisionError`;
`stopIteration` models `StopIteration` from an exhausted `next(...)`;
`quotaExhausted` models the `Exception("All projects at quota limit. Try
again next month.")` raised in `tts_generator.select_project`.
`emptyInput` and `invalidDuration` are modelled from the spec's error
taxonomy (section 7); the code itself never raises them. -/
inductive Err where
  | divByZero
  | quotaExhausted
  | stopIteration
  | emptyInput
  | invalidDuration
deriving DecidableEq, Repr

deriving instance DecidableEq for Except

/-- One entry of the persisted usage ledger `tts_usage.json`:
`{"project_id": ..., "month": ..., "chars_used": ...}`.  Project ids are
opaque JSON strings in the source; they are represented by `Nat`. -/
structure UProj where
  project_id : Nat
  month : Nat
  chars_used : Int
deriving DecidableEq, Repr

/-- One entry of `config["projects"]` in `tts_config.json` (only the id
matters to the control flow modelled here; `key_path` is I/O-only). -/
structure CProj where
  project_id : Nat
deriving DecidableEq, Repr

/-- The TTS configuration: the project list and the optional
`safety_limit` key (read by `config.get("safety_limit", 800000)`). -/
structure Config where
  projects : List CProj
  safety_limit : Option Int
deriving DecidableEq, Repr

/-- Python `config.get("safety_limit", 800000)`. -/
def Config.safetyLimit (c : Config) : Int :=
  c.safety_limit.getD 800000

/-- The month-rollover pass of `load_usage_data` (tts_generator.py lines
44-49): every project whose stored `month` differs from the current month
has `chars_used` reset to 0 and `month` set to the current month. -/
def load_usage_data (now : Nat) (ledger : List UProj) : List UProj :=
  ledger.map fun p =>
    if p.month ≠ now then { p with month := now, chars_used := 0 } else p

/-- Python `min(available, key=lambda p: p["chars_used"])`: fold keeping the
current best, replacing it only on a strictly smaller key (so the first
minimum wins, as in CPython). -/
def pyMin (best : UProj) : List UProj → UProj
  | [] => best
  | p :: ps => pyMin (if p.chars_used < best.chars_used then p else best) ps

/-- `select_project(config, usage)` (tts_generator.py lines 57-75): filter
the ledger to projects with `chars_used < safety_limit`; raise if none;
pick the least-used; look up its config entry with `next(...)` (which
raises `StopIteration` if the id is absent from the config). -/
def select_project (config : Config) (usage : List UProj) :
    Except Err (UProj × CProj) :=
  match usage.filter (fun p => p.chars_used < config.safetyLimit) with
  | [] => .error .quotaExhausted
  | a :: rest =>
    let selected := pyMin a rest
    match config.projects.find? (fun c => c.project_id = selected.project_id) with
    | none => .error .stopIteration
    | some pc => .ok (selected, pc)

/-- The first-match increment loop of `update_usage` (tts_generator.py
lines 92-95): add `chars` to the first ledger entry with the given id
(the Python loop `break`s after the first hit). -/
def addUsage (pid : Nat) (chars : Int) : List UProj → List UProj
  | [] => []
  | p :: ps =>
    if p.project_id = pid then { p with chars_used := p.chars_used + chars } :: ps
    else p :: addUsage pid chars ps

/-- `update_usage(project_id, chars_used)` (tts_generator.py lines 89-97):
re-read the ledger (which applies the month rollover and persists it),
apply the delta to the first matching project, persist. -/
def update_usage (now : Nat) (ledger : List UProj) (pid : Nat) (chars : Int) :
    List UProj :=
  addUsage pid chars (load_usage_data now ledger)

/-- The quota portion of `generate_audio` (tts_generator.py lines 151-203)
given the ledger state returned by the `load_usage_data()` read at line
151: select a project, and on success record the rendered character count
via `update_usage`.  Returns the outcome together with the ledger state
left persisted. -/
def render_quota (now : Nat) (config : Config) (usage : List UProj)
    (chars : Int) : Except Err Nat × List UProj :=
  match select_project config usage with
  | .error e => (.error e, usage)
  | .ok (sel, _) => (.ok sel.project_id, update_usage now usage sel.project_id chars)

/-- Two-project configuration of the quota scenario: safety limit 1000. -/
def cfg1 : Config := ⟨[⟨1⟩, ⟨2⟩], some 1000⟩

/-- Ledger with projects at 800 and 999 used characters (month 6). -/
def us800 : List UProj := [⟨1, 6, 800⟩, ⟨2, 6, 999⟩]

/-- Ledger after the first 150-character render. -/
def us950 : List UProj := [⟨1, 6, 950⟩, ⟨2, 6, 999⟩]

/-- Ledger after the second 150-character render: 1100 exceeds the limit. -/
def us1100 : List UProj := [⟨1, 6, 1100⟩, ⟨2, 6, 999⟩]

/-- Stale ledger used by the C9 witness: stored month 3, read in month 4. -/
def ledgerW : List UProj := [⟨7, 3, 555⟩]

/-- Ledger used by the C10 witness. -/
def ledgerX : List UProj := [⟨1, 4, 10⟩, ⟨3, 4, 20⟩]

/-- Whitespace characters recognised by Python `str.split()` and the
regex class `\s` on the ASCII texts this pipeline handles. -/
def isSpace (c : Char) : Bool :=
  c == ' ' || c == '\t' || c == '\n' || c == '\r' || c == '\x0b' || c == '\x0c'

/-- Python `str.split()` with no arguments: maximal runs of
non-whitespace characters, in order, with no empty tokens. -/
def pySplit : List Char → List (List Char)
  | [] => []
  | c :: l =>
    if isSpace c then pySplit l
    else
      match l with
      | [] => [[c]]
      | d :: _ =>
        if isSpace d then [c] :: pySplit l
        else
          match pySplit l with
          | [] => [[c]]
          | t :: ts => (c :: t) :: ts

/-- Python `' '.join(words)` for a list of words. -/
def joinSp : List (List Char) → List Char
  | [] => []
  | [w] => w
  | w :: ws => w ++ ' ' :: joinSp ws

/-- Terminal sentence punctuation of the splitting regex
`(?<=[.!?])\s+` in `split_into_segments`. -/
def isTerm (c : Char) : Bool := c == '.' || c == '!' || c == '?'

/-- Leftmost match of the separator `(?<=[.!?])\s+`: scan for the first
position whose previous character is terminal punctuation and whose own
character is whitespace, consume the maximal whitespace run (greedy
`\s+`), and return the piece before the run and the remainder after it. -/
def breakAtBoundary : List Char → Option (List Char × List Char)
  | [] => none
  | [_] => none
  | c :: d :: rest =>
    if isTerm c && isSpace d then some ([c], rest.dropWhile isSpace)
    else
      match breakAtBoundary (d :: rest) with
      | none => none
      | some (p, r) => some (c :: p, r)

/-- Fuelled driver of `re.split(r'(?<=[.!?])\s+', text)`: repeatedly cut
at the leftmost separator.  Each cut strictly shortens the text, so
`text.length` fuel always suffices; the fuel only makes the recursion
structural. -/
def sentSplitFuel : Nat → List Char → List (List Char)
  | 0, t => [t]
  | fuel + 1, t =>
    match breakAtBoundary t with
    | none => [t]
    | some (p, r) => p :: sentSplitFuel fuel r

/-- Python `re.split(r'(?<=[.!?])\s+', text)` (script_generator.py
line 28). -/
def sentSplit (t : List Char) : List (List Char) := sentSplitFuel t.length t

/-- Loop body of the word-accumulation in `split_into_segments`
(script_generator.py lines 35-46).  The state is
`(current_segment, segments)`, a segment being its list of words; the
Python `current_length` variable is written but never read, so it is not
modelled.  The same loop shape re-appears as the caption line wrapper
(lines 102-114). -/
def segStep (limit : Nat) (st : List (List Char) × List (List (List Char)))
    (w : List Char) : List (List Char) × List (List (List Char)) :=
  let testLine := joinSp (st.1 ++ [w])
  if limit < testLine.length then
    if st.1 = [] then (st.1, st.2 ++ [[w]])
    else ([w], st.2 ++ [st.1])
  else (st.1 ++ [w], st.2)

/-- `split_into_segments(text, max_chars_per_line, max_lines)`
(script_generator.py lines 27-51): sentence-split, then greedily pack
words against the budget `max_chars_per_line * max_lines`, flushing the
trailing segment at the end.  A segment is represented by its list of
words; the Python segment string is `joinSp` of it. -/
def split_into_segments (text : List Char) (maxCharsPerLine maxLines : Nat) :
    List (List (List Char)) :=
  let st := (sentSplit text).foldl
    (fun acc s => (pySplit s).foldl (segStep (maxCharsPerLine * maxLines)) acc)
    ([], [])
  if st.1 = [] then st.2 else st.2 ++ [st.1]

/-- Lower-casing used for `text.lower()` and the `re.IGNORECASE` match. -/
def lowerList (s : List Char) : List Char := s.map Char.toLower

/-- Python substring test `needle in hay`. -/
def containsSub (needle : List Char) : List Char → Bool
  | [] => needle.isEmpty
  | c :: rest => needle.isPrefixOf (c :: rest) || containsSub needle rest

/-- The emphasis trigger words of `generate_tts_vtt`
(script_generator.py line 76). -/
def triggerWords : List (List Char) :=
  ["important".data, "critical".data, "significant".data, "major".data]

/-- Word-constituent characters of the regex class `\w` (ASCII). -/
def isWordChar (c : Char) : Bool := c.isAlpha || c.isDigit || c == '_'

/-- Whether the position starting the given suffix is a `\b` boundary
when the preceding character is a word character. -/
def boundaryAfter : List Char → Bool
  | [] => true
  | c :: _ => !(isWordChar c)

/-- Try to match one trigger word case-insensitively at the head of `s`,
requiring a word boundary after it; returns the matched original text and
the remainder. -/
def tryTrigger (w s : List Char) : Option (List Char × List Char) :=
  if (lowerList (s.take w.length) == w) && boundaryAfter (s.drop w.length) then
    some (s.take w.length, s.drop w.length)
  else none

/-- First trigger-word alternative matching at the head of `s`, in the
order of the regex alternation. -/
def matchTrigger (s : List Char) : Option (List Char × List Char) :=
  (tryTrigger "important".data s).orElse fun _ =>
  (tryTrigger "critical".data s).orElse fun _ =>
  (tryTrigger "significant".data s).orElse fun _ =>
  tryTrigger "major".data s

/-- Fuelled scanner for
`re.sub(r'\b(important|critical|significant|major)\b', r'<emphasis
strong>\1</emphasis>', text, flags=re.IGNORECASE)`: walk the text tracking
whether the previous character was a word character (so `\b` holds before
the current position), wrapping each whole-word trigger match.  Every step
consumes at least one character, so `s.length` fuel suffices. -/
def emphSubFuel : Nat → Bool → List Char → List Char
  | 0, _, s => s
  | _ + 1, _, [] => []
  | fuel + 1, prevW, c :: rest =>
    if prevW then c :: emphSubFuel fuel (isWordChar c) rest
    else
      match matchTrigger (c :: rest) with
      | some (orig, rest2) =>
        "<emphasis strong>".data ++ orig ++ "</emphasis>".data ++
          emphSubFuel fuel true rest2
      | none => c :: emphSubFuel fuel (isWordChar c) rest

/-- The emphasis substitution of `generate_tts_vtt` (script_generator.py
lines 77-78). -/
def emphasisSub (s : List Char) : List Char := emphSubFuel s.length false s

/-- Per-segment text decoration of `generate_tts_vtt` (script_generator.py
lines 72-78): the first segment is wrapped in a slow-rate span, and if any
trigger word occurs as a substring of the lower-cased text, whole-word
occurrences are wrapped in emphasis spans. -/
def ttsMarkup (i : Nat) (seg : List Char) : List Char :=
  let text := if i = 0 then "<rate slow>".data ++ seg ++ "</rate>".data else seg
  if triggerWords.any (fun w => containsSub w (lowerList text)) then
    emphasisSub text
  else text

/-- One timed cue of a track: the `[start, end)` interval in seconds and
the rendered payload (marked-up text for the TTS track, a list of display
lines for the captions track). -/
structure Cue (α : Type) where
  start : ℚ
  tEnd : ℚ
  payload : α
deriving DecidableEq, Repr

/-- Cue-emission loop of `generate_tts_vtt` (script_generator.py lines
67-83): `current_time` starts at 0 and each cue spans
`[current_time, current_time + duration_per_segment)`, the end becoming
the next start. -/
def ttsLoop (dps : ℚ) : Nat → List (List (List Char)) → ℚ → List (Cue (List Char))
  | _, [], _ => []
  | i, seg :: rest, t =>
    ⟨t, t + dps, ttsMarkup i (joinSp seg)⟩ :: ttsLoop dps (i + 1) rest (t + dps)

/-- `generate_tts_vtt(summary_text, total_duration)` (script_generator.py
lines 60-85), as the structured cue list it serialises.  The division
`total_duration / len(segments)` raises `ZeroDivisionError` when there are
no segments. -/
def generate_tts_vtt (text : List Char) (total_duration : ℚ) :
    Except Err (List (Cue (List Char))) :=
  let segments := split_into_segments text 35 2
  if segments.length = 0 then .error .divByZero
  else .ok (ttsLoop (total_duration / segments.length) 0 segments 0)

/-- Caption line re-wrapping of `generate_captions_vtt`
(script_generator.py lines 98-114): the same greedy loop as the segmenter,
with the single-line budget, producing display lines (as word lists). -/
def wrapLines (maxChars : Nat) (ws : List (List Char)) :
    List (List (List Char)) :=
  let st := ws.foldl (segStep maxChars) ([], [])
  if st.1 = [] then st.2 else st.2 ++ [st.1]

/-- Cue-emission loop of `generate_captions_vtt` (script_generator.py
lines 93-119): re-split each segment into words, wrap them into display
lines, and keep at most the first two lines (`lines[:2]`). -/
def capLoop (dps : ℚ) (maxChars : Nat) :
    List (List (List Char)) → ℚ → List (Cue (List (List (List Char))))
  | [], _ => []
  | seg :: rest, t =>
    let ws := pySplit (joinSp seg)
    let lines := wrapLines maxChars ws
    ⟨t, t + dps, lines.take 2⟩ :: capLoop dps maxChars rest (t + dps)

/-- `generate_captions_vtt(summary_text, total_duration, max_chars)`
(script_generator.py lines 87-121), as the structured cue list it
serialises. -/
def generate_captions_vtt (text : List Char) (total_duration : ℚ)
    (maxChars : Nat) : Except Err (List (Cue (List (List (List Char))))) :=
  let segments := split_into_segments text maxChars 2
  if segments.length = 0 then .error .divByZero
  else .ok (capLoop (total_duration / segments.length) maxChars segments 0)

/-- Concatenation of a list of lists (used to state that segmentation
preserves the word sequence). -/
def concatAll : List (List α) → List α
  | [] => []
  | x :: xs => x ++ concatAll xs

/-- The interval list of a cue track. -/
def cueBounds {α : Type} (cs : List (Cue α)) : List (ℚ × ℚ) :=
  cs.map fun c => (c.start, c.tEnd)

/-- The interval sequence produced by the shared accumulation pattern of
both cue loops: starting at `t`, each of `n` intervals spans
`[current, current + dps)`. -/
def boundsList (dps : ℚ) : Nat → ℚ → List (ℚ × ℚ)
  | 0, _ => []
  | n + 1, t => (t, t + dps) :: boundsList dps n (t + dps)

/-- The interval-sequence invariant claimed for one allocation: non-empty,
first start 0, each end equal to the next start, ends pairwise
non-decreasing, last end equal to the total duration. -/
def contiguousBounds (D : ℚ) (bs : List (ℚ × ℚ)) : Prop :=
  bs ≠ [] ∧ bs.head?.map Prod.fst = some 0 ∧
  List.Chain' (fun a b => a.2 = b.1) bs ∧
  List.Pairwise (fun a b => a.2 ≤ b.2) bs ∧
  bs.getLast?.map Prod.snd = some D

/-- Two-word sample text used by the concrete witnesses. -/
def hiText : List Char := ['H', 'i']

/-- The 36-character single word used by the C6 counterexample. -/
def w36 : List Char := List.replicate 36 'a'

/-- A non-negative IEEE-754 binary64 value in normal range, represented
exactly as `m * 2 ^ e` with a 53-bit normalised mantissa
(`2^52 ≤ m < 2^53`, or `m = 0` for zero), so that equality of values is
equality of representations. -/
structure Dy where
  m : Nat
  e : Int
deriving DecidableEq, Repr

/-- Normalise the fraction `n / d` (times `2 ^ e`) until it lies in
`[2^52, 2^53)`; fuelled doubling of numerator or denominator. -/
def normLoop : Nat → Nat → Nat → Int → Nat × Nat × Int
  | 0, n, d, e => (n, d, e)
  | fuel + 1, n, d, e =>
    if n < 2 ^ 52 * d then normLoop fuel (2 * n) d (e - 1)
    else if 2 ^ 53 * d ≤ n then normLoop fuel n (2 * d) (e + 1)
    else (n, d, e)

/-- Round `n / d` to the nearest integer, ties to even. -/
def roundHalfEven (n d : Nat) : Nat :=
  let q := n / d
  let r := n % d
  if 2 * r < d then q
  else if d < 2 * r then q + 1
  else if q % 2 = 0 then q else q + 1

/-- Round the positive rational `n / d` to the nearest binary64 value
(round-to-nearest, ties-to-even), for values within the normal range
covered by the fuel. -/
def flND (n d : Nat) : Dy :=
  if n = 0 then ⟨0, 0⟩
  else
    let nde := normLoop 400 n d 0
    let m := roundHalfEven nde.1 nde.2.1
    if m = 2 ^ 53 then ⟨2 ^ 52, nde.2.2 + 1⟩ else ⟨m, nde.2.2⟩

/-- The binary64 zero. -/
def dyZero : Dy := ⟨0, 0⟩

/-- The binary64 value of a natural number. -/
def dyOfNat (n : Nat) : Dy := flND n 1

/-- Round the exact dyadic `m * 2 ^ e` to binary64. -/
def flDy (m : Nat) (e : Int) : Dy :=
  let f := flND m 1
  if f.m = 0 then dyZero else ⟨f.m, f.e + e⟩

/-- Binary64 addition: exact dyadic sum, then one rounding. -/
def dyAdd (a b : Dy) : Dy :=
  if a.m = 0 then b
  else if b.m = 0 then a
  else
    let e := if a.e ≤ b.e then a.e else b.e
    flDy (a.m * 2 ^ (a.e - e).toNat + b.m * 2 ^ (b.e - e).toNat) e

/-- Binary64 multiplication by a natural number: exact product, then one
rounding (the spec's `i * duration_per_unit` computation). -/
def dyMulNat (k : Nat) (a : Dy) : Dy :=
  if k = 0 then dyZero else if a.m = 0 then dyZero else flDy (k * a.m) a.e

/-- Binary64 division: exact quotient rounded once. -/
def dyDiv (a b : Dy) : Dy :=
  if a.m = 0 then dyZero
  else
    let f := flND a.m b.m
    ⟨f.m, f.e + a.e - b.e⟩

/-- The timestamp accumulation of `generate_tts_vtt` and
`generate_captions_vtt` (script_generator.py lines 67-83 and 93-119)
under Python's binary64 float semantics: `current_time` starts at `t`
and each interval's end is `current_time + duration_per_segment`
computed as a float addition, the end becoming the next start. -/
def ttsTimesF (dps : Dy) : Nat → Dy → List (Dy × Dy)
  | 0, _ => []
  | n + 1, t => (t, dyAdd t dps) :: ttsTimesF dps n (dyAdd t dps)

theorem pyMin_spec (l : List UProj) : ∀ best : UProj, pyMin best l ∈ best :: l ∧
    ∀ q ∈ best :: l, (pyMin best l).chars_used ≤ q.chars_used := by
  induction l with
  | nil => intro best; simp [pyMin]
  | cons p ps ih =>
    intro best
    by_cases h : p.chars_used < best.chars_used
    · have hspec := ih p
      constructor
      · have := hspec.1
        simp only [pyMin, if_pos h]
        rcases List.mem_cons.mp this with h1 | h1
        · rw [h1]; simp
        · simp [List.mem_cons, h1]
      · intro q hq
        simp only [pyMin, if_pos h]
        rcases List.mem_cons.mp hq with rfl | hq2
        · exact le_trans (hspec.2 p (by simp)) (le_of_lt h)
        · exact hspec.2 q hq2
    · have hspec := ih best
      constructor
      · have := hspec.1
        simp only [pyMin, if_neg h]
        rcases List.mem_cons.mp this with h1 | h1
        · rw [h1]; simp
        · simp [List.mem_cons, h1]
      · intro q hq
        simp only [pyMin, if_neg h]
        rcases List.mem_cons.mp hq with rfl | hq2
        · exact hspec.2 q (by simp)
        · rcases List.mem_cons.mp hq2 with rfl | hq3
          · exact le_trans (hspec.2 best (by simp)) (le_of_not_lt h)
          · exact hspec.2 q (by simp [hq3])

theorem addUsage_of_not_mem (pid : Nat) (chars : Int) (l : List UProj)
    (h : ∀ p ∈ l, p.project_id ≠ pid) : addUsage pid chars l = l := by
  induction l with
  | nil => rfl
  | cons p ps ih =>
    have hp : p.project_id ≠ pid := h p (by simp)
    simp only [addUsage, if_neg hp]
    rw [ih fun q hq => h q (List.mem_cons_of_mem _ hq)]

/-- C7: the selector returns a least-used project under the safety limit
when one exists; otherwise it fails with the quota-exhausted error and the
render flow leaves the ledger exactly as it was read (no usage recorded).
The hypothesis `hwf` is the ledger well-formedness invariant (every ledger
project id appears in the config, as guaranteed by the ledger's
initialisation from `config["projects"]`). -/
theorem claim7_selector (config : Config) (usage : List UProj)
    (hwf : ∀ p ∈ usage, ∃ c ∈ config.projects, c.project_id = p.project_id) :
    ((∃ p ∈ usage, p.chars_used < config.safetyLimit) →
      ∃ sel pc, select_project config usage = .ok (sel, pc) ∧ sel ∈ usage ∧
        sel.chars_used < config.safetyLimit ∧
        (∀ q ∈ usage, q.chars_used < config.safetyLimit →
          sel.chars_used ≤ q.chars_used) ∧
        pc.project_id = sel.project_id) ∧
    ((∀ p ∈ usage, config.safetyLimit ≤ p.chars_used) →
      select_project config usage = .error .quotaExhausted ∧
      ∀ now chars, render_quota now config usage chars =
        (.error .quotaExhausted, usage)) := by
  constructor
  · rintro ⟨p, hp, hplt⟩
    have hpf : p ∈ usage.filter (fun q => q.chars_used < config.safetyLimit) :=
      List.mem_filter.mpr ⟨hp, by simpa using hplt⟩
    cases hfl : usage.filter (fun q => q.chars_used < config.safetyLimit) with
    | nil => rw [hfl] at hpf; simp at hpf
    | cons a rest =>
      have hself : pyMin a rest ∈
          usage.filter (fun q => q.chars_used < config.safetyLimit) := by
        rw [hfl]; exact (pyMin_spec rest a).1
      have hsel_mem : pyMin a rest ∈ usage := (List.mem_filter.mp hself).1
      have hsel_lt : (pyMin a rest).chars_used < config.safetyLimit := by
        simpa using (List.mem_filter.mp hself).2
      obtain ⟨c, hc, hcid⟩ := hwf _ hsel_mem
      have hfind : (config.projects.find?
          (fun cp => cp.project_id = (pyMin a rest).project_id)).isSome := by
        rw [List.find?_isSome]
        exact ⟨c, hc, by simpa using hcid⟩
      obtain ⟨pc, hpc⟩ := Option.isSome_iff_exists.mp hfind
      have hpcid : pc.project_id = (pyMin a rest).project_id := by
        have := List.find?_some hpc
        simpa using this
      refine ⟨pyMin a rest, pc, ?_, hsel_mem, hsel_lt, ?_, hpcid⟩
      · simp only [select_project]
        rw [hfl]
        simp [hpc]
      · intro q hq hqlt
        have hq_f : q ∈ usage.filter (fun r => r.chars_used < config.safetyLimit) :=
          List.mem_filter.mpr ⟨hq, by simpa using hqlt⟩
        rw [hfl] at hq_f
        exact (pyMin_spec rest a).2 q hq_f
  · intro hall
    have hfl : usage.filter (fun q => q.chars_used < config.safetyLimit) = [] := by
      rw [List.filter_eq_nil_iff]
      intro p hp
      simpa using not_lt.mpr (hall p hp)
    have hsel : select_project config usage = .error .quotaExhausted := by
      simp only [select_project]
      rw [hfl]
    refine ⟨hsel, fun now chars => ?_⟩
    simp [render_quota, hsel]

/-- Witness for C7 at a concrete configuration and ledger. -/
theorem claim7_witness : ∃ sel pc, select_project cfg1 us800 = .ok (sel, pc) ∧
    sel ∈ us800 ∧ sel.chars_used < cfg1.safetyLimit ∧
    (∀ q ∈ us800, q.chars_used < cfg1.safetyLimit →
      sel.chars_used ≤ q.chars_used) ∧
    pc.project_id = sel.project_id :=
  (claim7_selector cfg1 us800 (by decide)).1 ⟨⟨1, 6, 800⟩, by decide, by decide⟩

/-- C8 counterexample: with safety limit 1000 and projects at 800 and 999,
a first 150-character render selects the 800 project (usage becomes 950),
but a second identical render does NOT fail with the quota-exhausted error
as the claim states: it succeeds again on the same project. -/
theorem claim8_counterexample :
    render_quota 6 cfg1 us800 150 = (.ok 1, us950) ∧
    render_quota 6 cfg1 us950 150 = (.ok 1, us1100) ∧
    (render_quota 6 cfg1 us950 150).1 ≠ .error .quotaExhausted := by decide

/-- C8 amended: the first render selects the least-used project (800) and
leaves it at 950; the second identical render succeeds as well, because the
selector only requires the current `chars_used` to be below the limit and
never checks that the new request still fits, so usage is driven to 1100,
past the safety limit. -/
theorem claim8_amended_thm :
    render_quota 6 cfg1 us800 150 = (.ok 1, us950) ∧
    render_quota 6 cfg1 us950 150 = (.ok 1, us1100) ∧
    ∃ p ∈ us1100, cfg1.safetyLimit < p.chars_used := by decide

/-- C9: on every read, each project whose stored month differs from the
current month is reset to zero characters and stamped with the current
month (projects already in the current month are untouched), and a usage
delta is only ever applied to the rolled-over ledger. -/
theorem claim9_rollover (now : Nat) (ledger : List UProj) (p : UProj) (i : Nat)
    (h : ledger[i]? = some p) :
    ∃ q, (load_usage_data now ledger)[i]? = some q ∧ q.month = now ∧
      q.project_id = p.project_id ∧
      (p.month ≠ now → q.chars_used = 0) ∧
      (p.month = now → q = p) ∧
      ∀ pid chars, update_usage now ledger pid chars =
        addUsage pid chars (load_usage_data now ledger) := by
  refine ⟨if p.month ≠ now then { p with month := now, chars_used := 0 } else p,
    ?_, ?_, ?_, ?_, ?_, fun _ _ => rfl⟩
  · simp [load_usage_data, List.getElem?_map, h]
  · by_cases hm : p.month = now <;> simp [hm]
  · by_cases hm : p.month = now <;> simp [hm]
  · intro hm; simp [hm]
  · intro hm; simp [hm]

/-- Witness for C9: reading the stale ledger in month 4 resets the project. -/
theorem claim9_witness : ∃ q, (load_usage_data 4 ledgerW)[0]? = some q ∧
    q.month = 4 ∧ q.project_id = 7 ∧
    ((3 : Nat) ≠ 4 → q.chars_used = 0) ∧
    ((3 : Nat) = 4 → q = ⟨7, 3, 555⟩) ∧
    ∀ pid chars, update_usage 4 ledgerW pid chars =
      addUsage pid chars (load_usage_data 4 ledgerW) :=
  claim9_rollover 4 ledgerW ⟨7, 3, 555⟩ 0 (by decide)

/-- C10: recording usage for a project id absent from the ledger completes
without error and leaves the persisted ledger exactly as the read
(rollover included) produced it: the delta is silently discarded. -/
theorem claim10_unknown_id (now : Nat) (ledger : List UProj) (pid : Nat)
    (chars : Int) (h : ∀ p ∈ ledger, p.project_id ≠ pid) :
    update_usage now ledger pid chars = load_usage_data now ledger := by
  unfold update_usage
  apply addUsage_of_not_mem
  intro q hq
  obtain ⟨p, hp, rfl⟩ := List.mem_map.mp hq
  by_cases hm : p.month = now <;> simp [hm] <;> exact h p hp

/-- Witness for C10: recording 99 characters against the unknown id 2. -/
theorem claim10_witness :
    update_usage 4 ledgerX 2 99 = load_usage_data 4 ledgerX :=
  claim10_unknown_id 4 ledgerX 2 99 (by decide)

theorem concatAll_append (xs ys : List (List α)) :
    concatAll (xs ++ ys) = concatAll xs ++ concatAll ys := by
  induction xs with
  | nil => rfl
  | cons x xs ih => simp [concatAll, ih]

theorem mem_of_mem_concatAll {w : α} {s : List α} {ss : List (List α)}
    (hs : s ∈ ss) (hw : w ∈ s) : w ∈ concatAll ss := by
  induction ss with
  | nil => cases hs
  | cons x xs ih =>
    rcases List.mem_cons.mp hs with rfl | h
    · simp [concatAll, hw]
    · simp only [concatAll, List.mem_append]
      exact Or.inr (ih h)

theorem pySplit_cons_of_space {c : Char} (h : isSpace c = true)
    (l : List Char) : pySplit (c :: l) = pySplit l := by
  cases l <;> simp [pySplit, h]

theorem pySplit_cons_single {c : Char} (h : isSpace c = false) :
    pySplit [c] = [[c]] := by
  simp [pySplit, h]

theorem pySplit_cons_cons {c d : Char} (hc : isSpace c = false)
    (rest : List Char) :
    pySplit (c :: d :: rest) =
      if isSpace d then [c] :: pySplit (d :: rest)
      else
        match pySplit (d :: rest) with
        | [] => [[c]]
        | t :: ts => (c :: t) :: ts := by
  conv_lhs => rw [pySplit.eq_def]
  simp [hc]

theorem pySplit_ne_nil {c : Char} (h : isSpace c = false) (l : List Char) :
    pySplit (c :: l) ≠ [] := by
  cases l with
  | nil => simp [pySplit_cons_single h]
  | cons d rest =>
    rw [pySplit_cons_cons h]
    by_cases hd : isSpace d
    · simp [hd]
    · simp only [hd, Bool.false_eq_true, if_false]
      cases hps : pySplit (d :: rest) <;> simp

theorem pySplit_good : ∀ l : List Char, ∀ w ∈ pySplit l,
    w ≠ [] ∧ ∀ c ∈ w, isSpace c = false := by
  intro l
  induction l with
  | nil => simp [pySplit]
  | cons c rest ih =>
    by_cases hc : isSpace c
    · rw [pySplit_cons_of_space hc]; exact ih
    · have hc' : isSpace c = false := Bool.of_not_eq_true hc
      cases rest with
      | nil =>
        intro w hw
        rw [pySplit_cons_single hc', List.mem_singleton] at hw
        subst hw
        refine ⟨by simp, ?_⟩
        intro x hx
        rw [List.mem_singleton] at hx
        subst hx
        exact hc'
      | cons d rest2 =>
        rw [pySplit_cons_cons hc']
        by_cases hd : isSpace d
        · simp only [hd, if_true]
          intro w hw
          rcases List.mem_cons.mp hw with rfl | hw2
          · refine ⟨by simp, ?_⟩
            intro x hx
            rw [List.mem_singleton] at hx
            subst hx
            exact hc'
          · exact ih w hw2
        · simp only [hd, Bool.false_eq_true, if_false]
          rcases hps : pySplit (d :: rest2) with _ | ⟨t, ts⟩
          · exact absurd hps (pySplit_ne_nil (Bool.of_not_eq_true hd) rest2)
          · intro w hw
            have hgood := ih
            rw [hps] at hgood
            rcases List.mem_cons.mp hw with rfl | hw2
            · have ht := hgood t (by simp)
              refine ⟨by simp, ?_⟩
              intro x hx
              rcases List.mem_cons.mp hx with rfl | hx2
              · exact hc'
              · exact ht.2 x hx2
            · exact hgood w (by simp [hw2])

theorem pySplit_leading_space (ws : List Char)
    (hsp : ∀ c ∈ ws, isSpace c = true) (b : List Char) :
    pySplit (ws ++ b) = pySplit b := by
  induction ws with
  | nil => rfl
  | cons w ws' ih =>
    rw [List.cons_append, pySplit_cons_of_space (hsp w (by simp))]
    exact ih fun c hc => hsp c (by simp [hc])

theorem pySplit_append_of_space (ws : List Char) (hne : ws ≠ [])
    (hsp : ∀ c ∈ ws, isSpace c = true) :
    ∀ a b : List Char, pySplit (a ++ ws ++ b) = pySplit a ++ pySplit b := by
  intro a
  induction a with
  | nil =>
    intro b
    simpa [pySplit] using pySplit_leading_space ws hsp b
  | cons c a' ih =>
    intro b
    by_cases hc : isSpace c
    · rw [List.cons_append, List.cons_append,
        pySplit_cons_of_space hc, pySplit_cons_of_space hc]
      exact ih b
    · have hc' : isSpace c = false := Bool.of_not_eq_true hc
      cases a' with
      | nil =>
        rcases ws with _ | ⟨e, ws'⟩
        · exact absurd rfl hne
        · have he : isSpace e = true := hsp e (by simp)
          rw [pySplit_cons_single hc']
          have : ([c] ++ e :: ws' ++ b) = c :: e :: (ws' ++ b) := by simp
          rw [this, pySplit_cons_cons hc', if_pos he,
            pySplit_cons_of_space he, pySplit_leading_space ws'
              (fun x hx => hsp x (by simp [hx])) b]
          rfl
      | cons d a'' =>
        have hshape : (c :: d :: a'') ++ ws ++ b = c :: d :: (a'' ++ ws ++ b) := by
          simp
        rw [hshape, pySplit_cons_cons hc', pySplit_cons_cons hc']
        by_cases hd : isSpace d
        · rw [if_pos hd, if_pos hd]
          have : (d :: a'') ++ ws ++ b = d :: (a'' ++ ws ++ b) := by simp
          rw [← this, ih b, List.cons_append]
        · rw [if_neg hd, if_neg hd]
          rcases hps : pySplit (d :: a'') with _ | ⟨t, ts⟩
          · exact absurd hps (pySplit_ne_nil (Bool.of_not_eq_true hd) a'')
          · have e1 : pySplit ((d :: a'') ++ ws ++ b) =
                pySplit (d :: a'') ++ pySplit b := ih b
            have e2 : (d :: a'') ++ ws ++ b = d :: (a'' ++ ws ++ b) := by simp
            rw [e2, hps] at e1
            rw [e1]
            simp

theorem pySplit_of_good : ∀ w : List Char, w ≠ [] →
    (∀ c ∈ w, isSpace c = false) → pySplit w = [w] := by
  intro w
  induction w with
  | nil => intro h; exact absurd rfl h
  | cons c rest ih =>
    intro _ hsp
    have hc : isSpace c = false := hsp c (by simp)
    cases rest with
    | nil => exact pySplit_cons_single hc
    | cons d rest2 =>
      have hd : isSpace d = false := hsp d (by simp)
      rw [pySplit_cons_cons hc, if_neg (by simp [hd]),
        ih (by simp) fun x hx => hsp x (by simp [hx])]

theorem pySplit_joinSp : ∀ ws : List (List Char),
    (∀ w ∈ ws, w ≠ [] ∧ ∀ c ∈ w, isSpace c = false) →
    pySplit (joinSp ws) = ws := by
  intro ws
  induction ws with
  | nil => intro _; rfl
  | cons w ws' ih =>
    intro h
    cases ws' with
    | nil =>
      simp only [joinSp]
      exact pySplit_of_good w (h w (by simp)).1 (h w (by simp)).2
    | cons v vs =>
      have hj : joinSp (w :: v :: vs) = w ++ [' '] ++ joinSp (v :: vs) := by
        simp [joinSp]
      rw [hj, pySplit_append_of_space [' '] (by simp)
        (by intro x hx; rw [List.mem_singleton] at hx; subst hx; rfl),
        pySplit_of_good w (h w (by simp)).1 (h w (by simp)).2,
        ih fun u hu => h u (by simp [hu])]
      rfl

theorem breakAtBoundary_decomp : ∀ t p r : List Char,
    breakAtBoundary t = some (p, r) →
    ∃ ws, t = p ++ ws ++ r ∧ ws ≠ [] ∧ ∀ c ∈ ws, isSpace c = true := by
  intro t
  induction t with
  | nil => intro p r h; simp [breakAtBoundary] at h
  | cons c rest ih =>
    cases rest with
    | nil => intro p r h; simp [breakAtBoundary] at h
    | cons d rest2 =>
      intro p r h
      by_cases hcd : isTerm c && isSpace d
      · rw [breakAtBoundary, if_pos hcd] at h
        obtain ⟨rfl, rfl⟩ : [c] = p ∧ rest2.dropWhile isSpace = r := by
          constructor <;> cases h <;> rfl
        refine ⟨d :: rest2.takeWhile isSpace, ?_, by simp, ?_⟩
        · simp
        · intro x hx
          rcases List.mem_cons.mp hx with rfl | hx2
          · exact (Bool.and_eq_true_iff.mp hcd).2
          · exact List.mem_takeWhile_imp hx2
      · rw [breakAtBoundary, if_neg hcd] at h
        cases hbb : breakAtBoundary (d :: rest2) with
        | none => rw [hbb] at h; cases h
        | some pr =>
          obtain ⟨p', r'⟩ := pr
          rw [hbb] at h
          obtain ⟨rfl, rfl⟩ : c :: p' = p ∧ r' = r := by
            constructor <;> cases h <;> rfl
          obtain ⟨ws, hws, hwne, hwsp⟩ := ih p' r' hbb
          exact ⟨ws, by simp [hws], hwne, hwsp⟩

theorem breakAtBoundary_length (t p r : List Char)
    (h : breakAtBoundary t = some (p, r)) : r.length < t.length := by
  obtain ⟨ws, hws, hwne, _⟩ := breakAtBoundary_decomp t p r h
  have : ws.length ≠ 0 := fun hz => hwne (List.length_eq_zero.mp hz)
  rw [hws]
  simp only [List.length_append]
  omega

theorem sentSplitFuel_congr : ∀ fuel fuel' : Nat, ∀ t : List Char,
    t.length ≤ fuel → t.length ≤ fuel' →
    sentSplitFuel fuel t = sentSplitFuel fuel' t := by
  intro fuel
  induction fuel with
  | zero =>
    intro fuel' t h h'
    have ht : t = [] := List.length_eq_zero.mp (Nat.le_zero.mp h)
    subst ht
    cases fuel' <;> simp [sentSplitFuel, breakAtBoundary]
  | succ f ihf =>
    intro fuel' t h h'
    cases fuel' with
    | zero =>
      have ht : t = [] := List.length_eq_zero.mp (Nat.le_zero.mp h')
      subst ht
      simp [sentSplitFuel, breakAtBoundary]
    | succ f' =>
      simp only [sentSplitFuel]
      cases hbb : breakAtBoundary t with
      | none => rfl
      | some pr =>
        obtain ⟨p, r⟩ := pr
        have hlen := breakAtBoundary_length t p r hbb
        show p :: sentSplitFuel f r = p :: sentSplitFuel f' r
        rw [ihf f' r (by omega) (by omega)]

theorem sentSplit_unfold (t : List Char) :
    sentSplit t = match breakAtBoundary t with
      | none => [t]
      | some (p, r) => p :: sentSplit r := by
  unfold sentSplit
  cases t with
  | nil => simp [sentSplitFuel, breakAtBoundary]
  | cons c l =>
    simp only [List.length_cons, sentSplitFuel]
    cases hbb : breakAtBoundary (c :: l) with
    | none => rfl
    | some pr =>
      obtain ⟨p, r⟩ := pr
      have hlen := breakAtBoundary_length _ p r hbb
      simp only [List.length_cons] at hlen
      show p :: sentSplitFuel l.length r = p :: sentSplitFuel r.length r
      rw [sentSplitFuel_congr l.length r.length r (by omega) (le_refl _)]

theorem sent_words (t : List Char) :
    concatAll ((sentSplit t).map pySplit) = pySplit t := by
  rw [sentSplit_unfold]
  cases hbb : breakAtBoundary t with
  | none => simp [concatAll]
  | some pr =>
    obtain ⟨p, r⟩ := pr
    obtain ⟨ws, hws, hwne, hwsp⟩ := breakAtBoundary_decomp t p r hbb
    have hrec := sent_words r
    simp only [List.map_cons, concatAll]
    rw [hrec, hws, pySplit_append_of_space ws hwne hwsp p r]
termination_by t.length
decreasing_by exact breakAtBoundary_length t p r hbb

theorem segStep_concat (L : Nat) (st : List (List Char) × List (List (List Char)))
    (w : List Char) :
    concatAll (segStep L st w).2 ++ (segStep L st w).1 =
    (concatAll st.2 ++ st.1) ++ [w] := by
  simp only [segStep]
  split_ifs with h1 h2
  · simp [h2, concatAll_append, concatAll]
  · simp [concatAll_append, concatAll]
  · simp [concatAll_append, concatAll]

theorem segStep_foldl_concat (L : Nat) : ∀ (ws : List (List Char))
    (st : List (List Char) × List (List (List Char))),
    concatAll ((ws.foldl (segStep L) st).2) ++ (ws.foldl (segStep L) st).1 =
    (concatAll st.2 ++ st.1) ++ ws := by
  intro ws
  induction ws with
  | nil => intro st; simp
  | cons w ws' ih =>
    intro st
    rw [List.foldl_cons, ih (segStep L st w), segStep_concat]
    simp

theorem segStep_ne (L : Nat) (st : List (List Char) × List (List (List Char)))
    (w : List Char) (h : ∀ s ∈ st.2, s ≠ []) :
    ∀ s ∈ (segStep L st w).2, s ≠ [] := by
  simp only [segStep]
  split_ifs with h1 h2
  · intro s hs
    rcases List.mem_append.mp hs with hs1 | hs2
    · exact h s hs1
    · rw [List.mem_singleton] at hs2; subst hs2; simp
  · intro s hs
    rcases List.mem_append.mp hs with hs1 | hs2
    · exact h s hs1
    · rw [List.mem_singleton] at hs2; subst hs2; exact h2
  · exact h

theorem segStep_foldl_ne (L : Nat) : ∀ (ws : List (List Char))
    (st : List (List Char) × List (List (List Char))),
    (∀ s ∈ st.2, s ≠ []) → ∀ s ∈ (ws.foldl (segStep L) st).2, s ≠ [] := by
  intro ws
  induction ws with
  | nil => intro st h; exact h
  | cons w ws' ih =>
    intro st h
    rw [List.foldl_cons]
    exact ih (segStep L st w) (segStep_ne L st w h)

theorem foldl_concatAll {α β : Type} (f : β → α → β) :
    ∀ (xss : List (List α)) (init : β),
    (concatAll xss).foldl f init = xss.foldl (fun acc xs => xs.foldl f acc) init := by
  intro xss
  induction xss with
  | nil => intro init; rfl
  | cons xs xss' ih =>
    intro init
    simp only [concatAll, List.foldl_append, List.foldl_cons]
    exact ih (xs.foldl f init)

theorem split_into_segments_eq_words (t : List Char) (L M : Nat) :
    split_into_segments t L M =
      (if ((pySplit t).foldl (segStep (L * M)) ([], [])).1 = []
       then ((pySplit t).foldl (segStep (L * M)) ([], [])).2
       else ((pySplit t).foldl (segStep (L * M)) ([], [])).2 ++
         [((pySplit t).foldl (segStep (L * M)) ([], [])).1]) := by
  have e1 : ((sentSplit t).map pySplit).foldl
      (fun acc xs => xs.foldl (segStep (L * M)) acc) ([], []) =
      (sentSplit t).foldl
        (fun acc s => (pySplit s).foldl (segStep (L * M)) acc) ([], []) :=
    List.foldl_map pySplit (fun acc xs => xs.foldl (segStep (L * M)) acc)
      (sentSplit t) ([], [])
  have e2 := foldl_concatAll (segStep (L * M)) ((sentSplit t).map pySplit)
    ([], [])
  have h1 : (sentSplit t).foldl
      (fun acc s => (pySplit s).foldl (segStep (L * M)) acc) ([], []) =
      (pySplit t).foldl (segStep (L * M)) ([], []) := by
    rw [← e1, ← e2, sent_words]
  unfold split_into_segments
  rw [h1]

theorem split_words (t : List Char) (L M : Nat) :
    concatAll (split_into_segments t L M) = pySplit t ∧
    ∀ s ∈ split_into_segments t L M, s ≠ [] := by
  rw [split_into_segments_eq_words]
  have hconcat := segStep_foldl_concat (L * M) (pySplit t) ([], [])
  have hne := segStep_foldl_ne (L * M) (pySplit t) ([], []) (by simp)
  simp only [concatAll, List.append_nil, List.nil_append] at hconcat
  by_cases hcur : ((pySplit t).foldl (segStep (L * M)) ([], [])).1 = []
  · rw [if_pos hcur]
    rw [hcur, List.append_nil] at hconcat
    exact ⟨hconcat, hne⟩
  · rw [if_neg hcur]
    constructor
    · rw [concatAll_append]
      simp only [concatAll, List.append_nil]
      exact hconcat
    · intro s hs
      rcases List.mem_append.mp hs with hs1 | hs2
      · exact hne s hs1
      · rw [List.mem_singleton] at hs2; subst hs2; exact hcur

/-- C2: segmentation preserves the word sequence: re-splitting every
produced segment string into its word tokens and concatenating, in order,
yields exactly the word tokens of the source text, and no produced
segment is the empty string. -/
theorem claim2_segmenter (t : List Char) (L M : Nat) :
    concatAll ((split_into_segments t L M).map fun s => pySplit (joinSp s)) =
      pySplit t ∧
    ∀ s ∈ split_into_segments t L M, joinSp s ≠ [] := by
  obtain ⟨hconcat, hne⟩ := split_words t L M
  have hgood : ∀ s ∈ split_into_segments t L M, ∀ w ∈ s,
      w ≠ [] ∧ ∀ c ∈ w, isSpace c = false := by
    intro s hs w hw
    have hmem : w ∈ concatAll (split_into_segments t L M) :=
      mem_of_mem_concatAll hs hw
    rw [hconcat] at hmem
    exact pySplit_good t w hmem
  constructor
  · have hmap : (split_into_segments t L M).map (fun s => pySplit (joinSp s)) =
        (split_into_segments t L M).map (fun s => s) := by
      apply List.map_congr_left
      intro s hs
      exact pySplit_joinSp s (hgood s hs)
    rw [hmap, List.map_id']
    exact hconcat
  · intro s hs
    cases s with
    | nil => exact absurd rfl (hne [] hs)
    | cons w rest =>
      cases rest with
      | nil =>
        simp only [joinSp]
        exact (hgood (w :: List.nil) hs w (by simp)).1
      | cons v vs => simp [joinSp]

theorem ttsLoop_bounds (dps : ℚ) : ∀ (segs : List (List (List Char)))
    (i : Nat) (t : ℚ),
    cueBounds (ttsLoop dps i segs t) = boundsList dps segs.length t := by
  intro segs
  induction segs with
  | nil => intro i t; rfl
  | cons seg rest ih =>
    intro i t
    simp only [ttsLoop, cueBounds, List.map_cons, List.length_cons, boundsList]
    rw [← cueBounds, ih (i + 1) (t + dps)]

theorem capLoop_bounds (dps : ℚ) (maxChars : Nat) :
    ∀ (segs : List (List (List Char))) (t : ℚ),
    cueBounds (capLoop dps maxChars segs t) = boundsList dps segs.length t := by
  intro segs
  induction segs with
  | nil => intro t; rfl
  | cons seg rest ih =>
    intro t
    simp only [capLoop, cueBounds, List.map_cons, List.length_cons, boundsList]
    rw [← cueBounds, ih (t + dps)]

theorem capLoop_payloads (dps : ℚ) (maxChars : Nat) :
    ∀ (segs : List (List (List Char))) (t : ℚ),
    (capLoop dps maxChars segs t).map Cue.payload =
      segs.map fun seg => (wrapLines maxChars (pySplit (joinSp seg))).take 2 := by
  intro segs
  induction segs with
  | nil => intro t; rfl
  | cons seg rest ih =>
    intro t
    simp only [capLoop, List.map_cons]
    rw [ih (t + dps)]

theorem boundsList_length (dps : ℚ) : ∀ (n : Nat) (t : ℚ),
    (boundsList dps n t).length = n := by
  intro n
  induction n with
  | zero => intro t; rfl
  | succ m ih => intro t; simp [boundsList, ih]

theorem boundsList_head (dps : ℚ) (n : Nat) (t : ℚ) (h : n ≠ 0) :
    (boundsList dps n t).head?.map Prod.fst = some t := by
  cases n with
  | zero => exact absurd rfl h
  | succ m => simp [boundsList]

theorem boundsList_chain (dps : ℚ) : ∀ (n : Nat) (t : ℚ),
    List.Chain' (fun a b : ℚ × ℚ => a.2 = b.1) (boundsList dps n t) := by
  intro n
  induction n with
  | zero => intro t; simp [boundsList]
  | succ m ih =>
    intro t
    cases m with
    | zero => simp [boundsList]
    | succ k =>
      rw [boundsList, boundsList, List.chain'_cons]
      exact ⟨rfl, by rw [← boundsList]; exact ih (t + dps)⟩

theorem boundsList_end_lb (dps : ℚ) (h : 0 ≤ dps) : ∀ (n : Nat) (t : ℚ),
    ∀ b ∈ boundsList dps n t, t + dps ≤ b.2 := by
  intro n
  induction n with
  | zero => intro t b hb; simp [boundsList] at hb
  | succ m ih =>
    intro t b hb
    rw [boundsList] at hb
    rcases List.mem_cons.mp hb with rfl | hb2
    · simp
    · have := ih (t + dps) b hb2
      linarith

theorem boundsList_pairwise (dps : ℚ) (h : 0 ≤ dps) : ∀ (n : Nat) (t : ℚ),
    List.Pairwise (fun a b : ℚ × ℚ => a.2 ≤ b.2) (boundsList dps n t) := by
  intro n
  induction n with
  | zero => intro t; simp [boundsList]
  | succ m ih =>
    intro t
    rw [boundsList]
    refine List.Pairwise.cons ?_ (ih (t + dps))
    intro b hb
    have := boundsList_end_lb dps h m (t + dps) b hb
    simp only
    linarith

theorem boundsList_getLast (dps : ℚ) : ∀ (n : Nat) (t : ℚ), n ≠ 0 →
    (boundsList dps n t).getLast?.map Prod.snd = some (t + n * dps) := by
  intro n
  induction n with
  | zero => intro t h; exact absurd rfl h
  | succ m ih =>
    intro t _
    cases m with
    | zero => simp [boundsList]
    | succ k =>
      have htail : boundsList dps (k + 1 + 1) t =
          (t, t + dps) :: boundsList dps (k + 1) (t + dps) := rfl
      rw [htail]
      have hne : boundsList dps (k + 1) (t + dps) ≠ [] := by
        intro hz
        have := boundsList_length dps (k + 1) (t + dps)
        rw [hz] at this
        simp at this
      rcases hlst : boundsList dps (k + 1) (t + dps) with _ | ⟨b, bs⟩
      · exact absurd hlst hne
      · rw [List.getLast?_cons_cons, ← hlst]
        have := ih (t + dps) (by omega)
        rw [this]
        simp only [Option.some.injEq]
        push_cast
        ring

theorem boundsList_getElem (dps : ℚ) : ∀ (n i : Nat) (t : ℚ), i < n →
    (boundsList dps n t)[i]? =
      some (t + i * dps, t + (i + 1) * dps) := by
  intro n
  induction n with
  | zero => intro i t h; omega
  | succ m ih =>
    intro i t h
    cases i with
    | zero =>
      simp only [boundsList, List.getElem?_cons_zero, Option.some.injEq,
        Prod.mk.injEq]
      constructor <;> push_cast <;> ring
    | succ j =>
      rw [boundsList, List.getElem?_cons_succ, ih j (t + dps) (by omega)]
      simp only [Option.some.injEq, Prod.mk.injEq]
      constructor <;> push_cast <;> ring

theorem generate_tts_vtt_ok (t : List Char) (D : ℚ)
    (h : split_into_segments t 35 2 ≠ []) :
    generate_tts_vtt t D = .ok
      (ttsLoop (D / (split_into_segments t 35 2).length) 0
        (split_into_segments t 35 2) 0) := by
  have hlen : ¬ (split_into_segments t 35 2).length = 0 :=
    fun hz => h (List.length_eq_zero.mp hz)
  simp only [generate_tts_vtt]
  rw [if_neg hlen]

theorem generate_tts_vtt_err (t : List Char) (D : ℚ)
    (h : split_into_segments t 35 2 = []) :
    generate_tts_vtt t D = .error .divByZero := by
  simp only [generate_tts_vtt]
  rw [if_pos (by rw [h]; rfl)]

theorem generate_captions_vtt_ok (t : List Char) (D : ℚ) (maxChars : Nat)
    (h : split_into_segments t maxChars 2 ≠ []) :
    generate_captions_vtt t D maxChars = .ok
      (capLoop (D / (split_into_segments t maxChars 2).length) maxChars
        (split_into_segments t maxChars 2) 0) := by
  have hlen : ¬ (split_into_segments t maxChars 2).length = 0 :=
    fun hz => h (List.length_eq_zero.mp hz)
  simp only [generate_captions_vtt]
  rw [if_neg hlen]

theorem generate_captions_vtt_err (t : List Char) (D : ℚ) (maxChars : Nat)
    (h : split_into_segments t maxChars 2 = []) :
    generate_captions_vtt t D maxChars = .error .divByZero := by
  simp only [generate_captions_vtt]
  rw [if_pos (by rw [h]; rfl)]

theorem contiguousBounds_boundsList (dps D : ℚ) (n : Nat) (hn : n ≠ 0)
    (hdps : 0 ≤ dps) (hD : (n : ℚ) * dps = D) :
    contiguousBounds D (boundsList dps n 0) := by
  refine ⟨?_, boundsList_head dps n 0 hn, boundsList_chain dps n 0,
    boundsList_pairwise dps hdps n 0, ?_⟩
  · intro hz
    have hl := boundsList_length dps n 0
    rw [hz] at hl
    exact hn hl.symm
  · rw [boundsList_getLast dps n 0 hn, zero_add, hD]

theorem split_ne_of_words (t : List Char) (L M : Nat) (hw : pySplit t ≠ []) :
    split_into_segments t L M ≠ [] := by
  intro hz
  obtain ⟨hconcat, _⟩ := split_words t L M
  rw [hz] at hconcat
  exact hw hconcat.symm

/-- C1 (amended): for every text containing at least one word and every
positive total duration, both track builds succeed and their interval
sequences start at 0, are contiguous (each end equals the next start),
have non-decreasing ends, and end exactly at the total duration. -/
theorem claim1_amended (t : List Char) (D : ℚ) (hw : pySplit t ≠ [])
    (hD : 0 < D) :
    ∃ c1 c2, generate_tts_vtt t D = .ok c1 ∧
      generate_captions_vtt t D 35 = .ok c2 ∧
      contiguousBounds D (cueBounds c1) ∧
      contiguousBounds D (cueBounds c2) := by
  have hsegs : split_into_segments t 35 2 ≠ [] := split_ne_of_words t 35 2 hw
  have hn : (split_into_segments t 35 2).length ≠ 0 :=
    fun hz => hsegs (List.length_eq_zero.mp hz)
  have hnq : ((split_into_segments t 35 2).length : ℚ) ≠ 0 := by
    exact_mod_cast hn
  have hdps : 0 ≤ D / ((split_into_segments t 35 2).length : ℚ) := by
    apply le_of_lt
    apply div_pos hD
    exact_mod_cast Nat.pos_of_ne_zero hn
  refine ⟨_, _, generate_tts_vtt_ok t D hsegs,
    generate_captions_vtt_ok t D 35 hsegs, ?_, ?_⟩
  · rw [ttsLoop_bounds]
    exact contiguousBounds_boundsList _ D _ hn hdps (by field_simp)
  · rw [capLoop_bounds]
    exact contiguousBounds_boundsList _ D _ hn hdps (by field_simp)

/-- C1 counterexample: the whitespace-only text is a non-empty narration
text, yet with any positive duration both builds fail with a
division-by-zero error instead of producing interval sequences. -/
theorem claim1_counterexample :
    ([' '] : List Char) ≠ [] ∧ (0 : ℚ) < 10 ∧
    generate_tts_vtt [' '] 10 = .error .divByZero ∧
    generate_captions_vtt [' '] 10 35 = .error .divByZero :=
  ⟨by simp, by norm_num, generate_tts_vtt_err [' '] 10 (by decide),
    generate_captions_vtt_err [' '] 10 35 (by decide)⟩

/-- Witness for C1 at the sample text and duration 10. -/
theorem claim1_witness :
    ∃ c1 c2, generate_tts_vtt hiText 10 = .ok c1 ∧
      generate_captions_vtt hiText 10 35 = .ok c2 ∧
      contiguousBounds 10 (cueBounds c1) ∧
      contiguousBounds 10 (cueBounds c2) :=
  claim1_amended hiText 10 (by decide) (by norm_num)

/-- C3 (amended): in exact arithmetic, the iteratively accumulated
boundaries of both builds coincide with the closed form: the i-th
interval is `[i * (D / n), (i + 1) * (D / n))`. -/
theorem claim3_amended (t : List Char) (D : ℚ) (i : Nat)
    (hi : i < (split_into_segments t 35 2).length) :
    ∃ c1 c2, generate_tts_vtt t D = .ok c1 ∧
      generate_captions_vtt t D 35 = .ok c2 ∧
      (cueBounds c1)[i]? = some
        (i * (D / ((split_into_segments t 35 2).length : ℚ)),
          (i + 1) * (D / ((split_into_segments t 35 2).length : ℚ))) ∧
      (cueBounds c2)[i]? = some
        (i * (D / ((split_into_segments t 35 2).length : ℚ)),
          (i + 1) * (D / ((split_into_segments t 35 2).length : ℚ))) := by
  have hsegs : split_into_segments t 35 2 ≠ [] := by
    intro hz
    rw [hz] at hi
    simp at hi
  refine ⟨_, _, generate_tts_vtt_ok t D hsegs,
    generate_captions_vtt_ok t D 35 hsegs, ?_, ?_⟩
  · rw [ttsLoop_bounds, boundsList_getElem _ _ i 0 hi]
    simp only [Option.some.injEq, Prod.mk.injEq]
    constructor <;> ring
  · rw [capLoop_bounds, boundsList_getElem _ _ i 0 hi]
    simp only [Option.some.injEq, Prod.mk.injEq]
    constructor <;> ring

/-- Witness for C3 at the sample text, duration 7, first interval. -/
theorem claim3_witness :
    ∃ c1 c2, generate_tts_vtt hiText 7 = .ok c1 ∧
      generate_captions_vtt hiText 7 35 = .ok c2 ∧
      (cueBounds c1)[0]? = some
        (((0 : Nat) : ℚ) * (7 / ((split_into_segments hiText 35 2).length : ℚ)),
          (((0 : Nat) : ℚ) + 1) *
            (7 / ((split_into_segments hiText 35 2).length : ℚ))) ∧
      (cueBounds c2)[0]? = some
        (((0 : Nat) : ℚ) * (7 / ((split_into_segments hiText 35 2).length : ℚ)),
          (((0 : Nat) : ℚ) + 1) *
            (7 / ((split_into_segments hiText 35 2).length : ℚ))) :=
  claim3_amended hiText 7 0 (by decide)

/-- C4 (amended): for empty input the Segmenter returns normally with an
empty segment list (it signals nothing), and a track build on it fails
with the division-by-zero error, not a distinguished empty-input error. -/
theorem claim4_amended (D : ℚ) :
    split_into_segments [] 35 2 = [] ∧
    generate_tts_vtt [] D = .error .divByZero ∧
    generate_captions_vtt [] D 35 = .error .divByZero :=
  ⟨by decide, generate_tts_vtt_err [] D (by decide),
    generate_captions_vtt_err [] D 35 (by decide)⟩

/-- C4 counterexample: on empty input the Segmenter returns normally (an
empty list) and the build error is the division-by-zero kind, which is
not an empty-input condition. -/
theorem claim4_counterexample :
    split_into_segments [] 35 2 = [] ∧
    generate_tts_vtt [] 10 = .error .divByZero ∧
    Err.divByZero ≠ Err.emptyInput :=
  ⟨by decide, generate_tts_vtt_err [] 10 (by decide), by decide⟩

/-- C5 (amended): the builds fail, with a division-by-zero error rather
than a distinguished invalid-duration error, exactly when the segment
count is zero; when at least one segment exists they succeed for every
total duration, including non-positive ones. -/
theorem claim5_amended (t : List Char) (D : ℚ) :
    (split_into_segments t 35 2 = [] →
      generate_tts_vtt t D = .error .divByZero ∧
      generate_captions_vtt t D 35 = .error .divByZero) ∧
    (split_into_segments t 35 2 ≠ [] →
      (∃ c1, generate_tts_vtt t D = .ok c1) ∧
      ∃ c2, generate_captions_vtt t D 35 = .ok c2) := by
  constructor
  · intro h
    exact ⟨generate_tts_vtt_err t D h, generate_captions_vtt_err t D 35 h⟩
  · intro h
    exact ⟨⟨_, generate_tts_vtt_ok t D h⟩, ⟨_, generate_captions_vtt_ok t D 35 h⟩⟩

/-- C5 counterexample: with a non-positive total duration (-1) and a
non-empty segmentation the build succeeds; no invalid-duration check
exists. -/
theorem claim5_counterexample :
    (-1 : ℚ) ≤ 0 ∧ ∃ c, generate_tts_vtt hiText (-1) = .ok c :=
  ⟨by norm_num, ⟨_, generate_tts_vtt_ok hiText (-1) (by decide)⟩⟩

/-- Witness for C5: both branches at concrete inputs. -/
theorem claim5_witness :
    generate_tts_vtt [' '] 10 = .error .divByZero ∧
    ∃ c1, generate_tts_vtt hiText 7 = .ok c1 :=
  ⟨((claim5_amended [' '] 10).1 (by decide)).1,
    ((claim5_amended hiText 7).2 (by decide)).1⟩

theorem segStep_line_inv (L : Nat)
    (st : List (List Char) × List (List (List Char))) (w : List Char)
    (h1 : (joinSp st.1).length ≤ L ∨ ∃ u, st.1 = [u])
    (h2 : ∀ s ∈ st.2, (joinSp s).length ≤ L ∨ ∃ u, s = [u]) :
    ((joinSp (segStep L st w).1).length ≤ L ∨ ∃ u, (segStep L st w).1 = [u]) ∧
    ∀ s ∈ (segStep L st w).2, (joinSp s).length ≤ L ∨ ∃ u, s = [u] := by
  simp only [segStep]
  split_ifs with hov hcur
  · refine ⟨Or.inl (by rw [hcur]; simp [joinSp]), ?_⟩
    intro s hs
    rcases List.mem_append.mp hs with hs1 | hs2
    · exact h2 s hs1
    · rw [List.mem_singleton] at hs2
      subst hs2
      exact Or.inr ⟨w, rfl⟩
  · refine ⟨Or.inr ⟨w, rfl⟩, ?_⟩
    intro s hs
    rcases List.mem_append.mp hs with hs1 | hs2
    · exact h2 s hs1
    · rw [List.mem_singleton] at hs2
      subst hs2
      exact h1
  · exact ⟨Or.inl (Nat.le_of_not_lt hov), h2⟩

theorem segStep_foldl_line_inv (L : Nat) : ∀ (ws : List (List Char))
    (st : List (List Char) × List (List (List Char))),
    ((joinSp st.1).length ≤ L ∨ ∃ u, st.1 = [u]) →
    (∀ s ∈ st.2, (joinSp s).length ≤ L ∨ ∃ u, s = [u]) →
    ((joinSp (ws.foldl (segStep L) st).1).length ≤ L ∨
      ∃ u, (ws.foldl (segStep L) st).1 = [u]) ∧
    ∀ s ∈ (ws.foldl (segStep L) st).2,
      (joinSp s).length ≤ L ∨ ∃ u, s = [u] := by
  intro ws
  induction ws with
  | nil => intro st h1 h2; exact ⟨h1, h2⟩
  | cons w ws' ih =>
    intro st h1 h2
    rw [List.foldl_cons]
    obtain ⟨g1, g2⟩ := segStep_line_inv L st w h1 h2
    exact ih (segStep L st w) g1 g2

theorem wrapLines_spec (maxChars : Nat) (ws : List (List Char)) :
    ∀ line ∈ wrapLines maxChars ws,
      (joinSp line).length ≤ maxChars ∨ ∃ u, line = [u] := by
  unfold wrapLines
  obtain ⟨g1, g2⟩ := segStep_foldl_line_inv maxChars ws ([], [])
    (Or.inl (by simp [joinSp])) (by simp)
  by_cases hc : (ws.foldl (segStep maxChars) ([], [])).1 = []
  · rw [if_pos hc]
    exact g2
  · rw [if_neg hc]
    intro line hl
    rcases List.mem_append.mp hl with hl1 | hl2
    · exact g2 line hl1
    · rw [List.mem_singleton] at hl2
      subst hl2
      exact g1

theorem capLoop_payload_mem (dps : ℚ) (maxChars : Nat) :
    ∀ (segs : List (List (List Char))) (t : ℚ)
      (c : Cue (List (List (List Char)))), c ∈ capLoop dps maxChars segs t →
    ∃ seg ∈ segs, c.payload =
      (wrapLines maxChars (pySplit (joinSp seg))).take 2 := by
  intro segs
  induction segs with
  | nil => intro t c hc; simp [capLoop] at hc
  | cons seg rest ih =>
    intro t c hc
    simp only [capLoop] at hc
    rcases List.mem_cons.mp hc with rfl | hc2
    · exact ⟨seg, by simp, rfl⟩
    · obtain ⟨seg', hmem, hpay⟩ := ih (t + dps) c hc2
      exact ⟨seg', by simp [hmem], hpay⟩

/-- C6 (amended): whenever the captions build succeeds, every rendered
display line of every cue either fits the 35-character limit or consists
of a single word (a word longer than the limit is emitted alone, on an
over-long line). -/
theorem claim6_amended (t : List Char) (D : ℚ)
    (h : split_into_segments t 35 2 ≠ []) :
    ∃ cs, generate_captions_vtt t D 35 = .ok cs ∧
      ∀ c ∈ cs, ∀ line ∈ c.payload,
        (joinSp line).length ≤ 35 ∨ ∃ u, line = [u] := by
  refine ⟨_, generate_captions_vtt_ok t D 35 h, ?_⟩
  intro c hc line hl
  obtain ⟨seg, _, hpay⟩ := capLoop_payload_mem _ 35 _ 0 c hc
  rw [hpay] at hl
  exact wrapLines_spec 35 (pySplit (joinSp seg)) line
    (List.take_subset 2 _ hl)

/-- C6 counterexample: a single 36-character word becomes one caption
cue whose only display line is that word, of length 36 > 35. -/
theorem claim6_counterexample :
    ∃ cs, generate_captions_vtt w36 10 35 = .ok cs ∧
      cs.map Cue.payload = [[[w36]]] ∧ 35 < (joinSp [w36]).length := by
  have hseg : split_into_segments w36 35 2 = [[w36]] := by decide
  refine ⟨_, generate_captions_vtt_ok w36 10 35 (by rw [hseg]; simp), ?_, ?_⟩
  · rw [capLoop_payloads, hseg]
    decide
  · decide

/-- Witness for C6 at the sample text. -/
theorem claim6_witness :
    ∃ cs, generate_captions_vtt hiText 7 35 = .ok cs ∧
      ∀ c ∈ cs, ∀ line ∈ c.payload,
        (joinSp line).length ≤ 35 ∨ ∃ u, line = [u] :=
  claim6_amended hiText 7 (by decide)

/-- C3 counterexample: with 10 segments and total duration 1.0, the
boundaries the code produces by iterative float summation differ from
the single-multiplication form `i * duration_per_unit` claimed by the
spec (their 9th start differs), and the drift makes the final end
different from the total duration 1.0. -/
theorem claim3_counterexample :
    ((ttsTimesF (dyDiv (dyOfNat 1) (dyOfNat 10)) 10 dyZero).map Prod.fst ≠
      (List.range 10).map fun i => dyMulNat i (dyDiv (dyOfNat 1) (dyOfNat 10))) ∧
    (ttsTimesF (dyDiv (dyOfNat 1) (dyOfNat 10)) 10 dyZero).getLast?.map
        Prod.snd ≠ some (dyOfNat 1) := by
  decide
